import Mathlib

/-!
Verification of the commit-pipeline core of the axia-db storage engine
(`src/db.rs`).  The development shallowly embeds `DbInner` and its
operations: `commit_raw`, `get`, `process_commits`, `process_reindex`,
`enact_logs`, `store_err` and the initial state built by `DbInner::open`.

Modelling conventions:
- A `Key` is the 32-byte hash produced by the owning column
  (`table::Key`); it is modelled as an abstract identifier (`Nat`),
  with `KEY_LEN = 32` standing for `key.len()` in the byte accounting
  of `commit_raw`.
- A `Value` (`Vec<u8>`) is a `List Nat`.
- The per-column overlay `HashMap<Key, (u64, Option<Value>)>` is an
  association list with unique keys; `alookup`, `ainsert` and `aerase`
  model `HashMap::get`, `insert` and `remove`.
- External collaborators (the per-column index and value tables, and
  the `Log` facade) are out of scope in the source; their outputs that
  the core consumes (stamped log record ids, byte counts returned by
  `end_record`, `PlanOutcome`s, `validate_plan` / `enact_plan` /
  `drop_index` verdicts, column `get` fall-through) enter the model as
  oracle parameters.
- Locks, condition variables and threads are rendered sequentially:
  each worker-loop body is a state-to-state function, and the wait /
  notify decisions of the code are recorded as boolean fields of the
  operation outcomes so that the backpressure conditions can be stated.
-/

/-- Length of the fixed-width 32-byte hashed key (`table::Key`),
used by the `k.len()` term of the byte accounting in `commit_raw`. -/
def KEY_LEN : Nat := 32

/-- `MAX_COMMIT_QUEUE_BYTES` from db.rs line 48. -/
def MAX_COMMIT_QUEUE_BYTES : Nat := 16 * 1024 * 1024

/-- `MAX_LOG_QUEUE_BYTES` from db.rs line 50 (an `i64` in the source). -/
def MAX_LOG_QUEUE_BYTES : Int := 128 * 1024 * 1024

/-- A value is a byte sequence (`pub type Value = Vec<u8>`). -/
abbrev Value : Type := List Nat

/-- Errors distinguished by the embedded core (`error::Error`).  The
background slot stores the first worker error; it is abstracted to a
numeric code, and `background c` models `Error::Background(arc)`
wrapping the stored error `c`. -/
inductive DbError where
  | background (code : Nat)
  | corruption
  | io
deriving DecidableEq

/-- Lookup in an association list, modelling `HashMap::get`. -/
def alookup {A : Type} : List (Nat × A) → Nat → Option A
  | [], _ => none
  | (k0, a0) :: rest, k => if k = k0 then some a0 else alookup rest k

/-- Insert-or-replace in an association list, modelling `HashMap::insert`. -/
def ainsert {A : Type} : List (Nat × A) → Nat → A → List (Nat × A)
  | [], k, a => [(k, a)]
  | (k0, a0) :: rest, k, a =>
      if k = k0 then (k, a) :: rest else (k0, a0) :: ainsert rest k a

/-- Removal from an association list, modelling `HashMap::remove`
(invoked through `Entry::remove_entry` in `process_commits`). -/
def aerase {A : Type} : List (Nat × A) → Nat → List (Nat × A)
  | [], _ => []
  | (k0, a0) :: rest, k =>
      if k = k0 then aerase rest k else (k0, a0) :: aerase rest k

/-- One per-column overlay map: `Key -> (record_id, Option<Value>)`. -/
abbrev OverlayCol : Type := List (Nat × (Nat × Option Value))

/-- A changeset entry `(ColId, Key, Option<Value>)`; `none` is a delete. -/
abbrev ChangeEntry : Type := Nat × Nat × Option Value

/-- A queued commit (struct `Commit`, db.rs lines 60-69). -/
structure Commit where
  id : Nat
  bytes : Nat
  changeset : List ChangeEntry
deriving DecidableEq

/-- The shared engine state (`DbInner`, db.rs lines 103-122) restricted
to the fields the embedded operations read or write.  `refCounted c`
is `metadata.columns[c].ref_counted`; `backing c k` is the external
`columns[c].get(key, log.overlays())` fall-through used by `get`. -/
structure DbState where
  numColumns : Nat
  refCounted : Nat → Bool
  backing : Nat → Nat → Option Value
  commitOverlay : Nat → OverlayCol
  queueRecordId : Nat
  queueBytes : Nat
  queueCommits : List Commit
  logQueueBytes : Int
  bgErr : Option Nat
  shutdownFlag : Bool
  lastEnacted : Nat
  nextReindex : Nat

/-- The state produced by `DbInner::open` (db.rs lines 161-203):
empty commit queue (`CommitQueue::default()`), empty overlays, zeroed
log-queue account, no background error, `next_reindex = 1`, and
`last_enacted = log.replay_record_id().unwrap_or(2) - 1` (record ids
are positive, so `Nat` subtraction is exact here). -/
def db_open (replayRecordId : Option Nat) (numColumns : Nat)
    (refCounted : Nat → Bool) (backing : Nat → Nat → Option Value) : DbState :=
  { numColumns := numColumns
    refCounted := refCounted
    backing := backing
    commitOverlay := fun _ => []
    queueRecordId := 0
    queueBytes := 0
    queueCommits := []
    logQueueBytes := 0
    bgErr := none
    shutdownFlag := false
    lastEnacted := replayRecordId.getD 2 - 1
    nextReindex := 1 }

/-- `DbInner::get` (db.rs lines 205-215) on an already hashed key:
probe the commit overlay first; a hit (even a stored `none`) is
authoritative; otherwise fall through to the column. -/
def db_get (s : DbState) (col k : Nat) : Option Value :=
  match alookup (s.commitOverlay col) k with
  | some rv => rv.2
  | none => s.backing col k

/-- The overlay write of one changeset entry inside the ingest loop of
`commit_raw` (db.rs lines 265-272): insert `(record_id, value)` unless
the column is reference-counted and the value is a delete. -/
def ovWrite (rc : Nat → Bool) (rid : Nat) (ov : Nat → OverlayCol)
    (e : ChangeEntry) : Nat → OverlayCol :=
  if !rc e.1 || e.2.2.isSome then
    fun c => if c = e.1 then ainsert (ov e.1) e.2.1 (rid, e.2.2) else ov c
  else ov

/-- Byte accounting of one changeset entry in `commit_raw`
(`bytes += k.len(); bytes += v.as_ref().map_or(0, |v| v.len())`). -/
def entryBytes (e : ChangeEntry) : Nat :=
  KEY_LEN + (match e.2.2 with | some v => v.length | none => 0)

/-- Result of `commit_raw`.  `err` is the `Result<()>` value;
`waitedQueueFull` records whether the guard of the
`commit_queue_full_cv` wait (db.rs line 248) held on entry. -/
structure CommitOutcome where
  state : DbState
  err : Option DbError
  waitedQueueFull : Bool

/-- `DbInner::commit_raw` (db.rs lines 245-291) on an already hashed
changeset.  After the queue-full wait, the background-error slot is
checked and, when set, the call fails before touching the queue or the
overlay.  Otherwise `queue.record_id += 1`, the record id
`queue.record_id + 1` is allocated, every entry is written to the
overlay (subject to the ref-counted-delete exception) and summed into
`bytes`, and the commit is pushed with `queue.bytes += bytes`. -/
def commit_raw (s : DbState) (commit : List ChangeEntry) : CommitOutcome :=
  let waited := decide (s.queueBytes > MAX_COMMIT_QUEUE_BYTES)
  match s.bgErr with
  | some e => { state := s, err := some (.background e), waitedQueueFull := waited }
  | none =>
      let record_id := s.queueRecordId + 1 + 1
      let overlay := commit.foldl (ovWrite s.refCounted record_id) s.commitOverlay
      let bytes := commit.foldl (fun b e => b + entryBytes e) 0
      let cm : Commit := { id := record_id, bytes := bytes, changeset := commit }
      { state := { s with
          queueRecordId := s.queueRecordId + 1
          commitOverlay := overlay
          queueCommits := s.queueCommits ++ [cm]
          queueBytes := s.queueBytes + bytes }
        err := none
        waitedQueueFull := waited }

/-- Outputs of the external column and log calls made while the log
worker serialises one commit: the byte count returned by
`log.end_record`, the record id stamped by `log.begin_record`, and
whether any `write_plan` call returned `PlanOutcome::NeedReindex`. -/
structure PCOracle where
  recordBytes : Nat
  logRecordId : Nat
  needReindex : Bool

/-- The overlay cleanup of one changeset entry in `process_commits`
(db.rs lines 365-372): remove the entry only when its stored record id
equals the id of the commit being processed. -/
def ovClean (id : Nat) (ov : Nat → OverlayCol) (e : ChangeEntry) :
    Nat → OverlayCol :=
  match alookup (ov e.1) e.2.1 with
  | some rv =>
      if rv.1 = id then
        fun c => if c = e.1 then aerase (ov e.1) e.2.1 else ov c
      else ov
  | none => ov

/-- Result of `process_commits`.  `waitedLogQueue` records whether the
log-queue backpressure guard (db.rs line 297) held; `notifiedProducer`
records whether the pop notified `commit_queue_full_cv`
(db.rs lines 312-319). -/
structure PCOutcome where
  state : DbState
  didWork : Bool
  waitedLogQueue : Bool
  notifiedProducer : Bool

/-- `DbInner::process_commits` (db.rs lines 293-391): wait while the
log-queue account is over `MAX_LOG_QUEUE_BYTES` (unless shutting
down), pop the front commit, debit `queue.bytes` and notify a producer
when the pop crosses `MAX_COMMIT_QUEUE_BYTES` from above, write the
WAL record (external; its byte count and stamped id come from the
oracle), credit the log-queue account, then clean the overlay entries
whose stored record id equals the commit id, and arm `next_reindex`
with the log record id when a `write_plan` demanded a reindex. -/
def process_commits (s : DbState) (o : PCOracle) : PCOutcome :=
  let waited := !s.shutdownFlag && decide (s.logQueueBytes > MAX_LOG_QUEUE_BYTES)
  match s.queueCommits with
  | [] =>
      { state := s, didWork := false, waitedLogQueue := waited,
        notifiedProducer := false }
  | cm :: rest =>
      let newBytes := s.queueBytes - cm.bytes
      let notified := decide (newBytes ≤ MAX_COMMIT_QUEUE_BYTES) &&
        decide (newBytes + cm.bytes > MAX_COMMIT_QUEUE_BYTES)
      let overlay := cm.changeset.foldl (ovClean cm.id) s.commitOverlay
      { state := { s with
          queueCommits := rest
          queueBytes := newBytes
          logQueueBytes := s.logQueueBytes + (o.recordBytes : Int)
          commitOverlay := overlay
          nextReindex := if o.needReindex then o.logRecordId else s.nextReindex }
        didWork := true
        waitedLogQueue := waited
        notifiedProducer := notified }

/-- `DbInner::store_err` (db.rs lines 700-710): on a worker error,
store it only when the slot is empty (the first fatal error wins) and
drive the engine toward shutdown. -/
def store_err (s : DbState) (result : Option Nat) : DbState :=
  match result with
  | some e =>
      if s.bgErr.isNone then { s with bgErr := some e, shutdownFlag := true }
      else s
  | none => s

/-- Outputs of the external column calls made by `process_reindex`:
for each column, the `(drop_index, batch)` pair returned by
`column.reindex`, plus the stamped record id, the `end_record` byte
count and the `NeedReindex` outcome of the `write_reindex_plan`
calls, for the first column with non-empty work. -/
structure ReindexOracle where
  columnWork : List (Option Nat × List (Nat × Nat))
  logRecordId : Nat
  recordBytes : Nat
  needReindex : Bool

/-- `DbInner::process_reindex` (db.rs lines 397-445): return `false`
when `next_reindex == 0` or `next_reindex > last_enacted`; otherwise
write a reindex record for the first column with pending work
(re-arming `next_reindex` when another reindex is needed), or clear
`next_reindex` to `0` when every column is done. -/
def process_reindex (s : DbState) (o : ReindexOracle) : DbState × Bool :=
  if s.nextReindex = 0 ∨ s.nextReindex > s.lastEnacted then (s, false)
  else
    match o.columnWork.find? (fun w => w.1.isSome || !w.2.isEmpty) with
    | some _ =>
        ({ s with
            logQueueBytes := s.logQueueBytes + (o.recordBytes : Int)
            nextReindex := if o.needReindex then o.logRecordId else s.nextReindex },
          true)
    | none => ({ s with nextReindex := 0 }, false)

/-- The first statement of `Db::log_worker` (db.rs line 872): before
entering its wait loop, the log worker runs one `process_reindex`
pass to drain reindexing pending from a previous run. -/
def log_worker_startup (s : DbState) (o : ReindexOracle) : DbState × Bool :=
  process_reindex s o

/-- A log action as seen by the core (`log::LogAction`).  The column
id carried by `InsertIndex` / `InsertValue` insertions
(`insertion.table.col()`) and by `DropTable` ids (`id.col()`) is kept;
the slot payloads are consumed by the external columns. -/
inductive LogAction where
  | beginRecord
  | endRecord
  | insertIndex (col : Nat)
  | insertValue (col : Nat)
  | dropTable (col : Nat)
deriving DecidableEq

/-- A positioned log-record reader as returned by `log.read_next`:
the stamped record id, the sequence of `reader.next()` results after
the record header (`none` models an I/O or framing error), and the
byte count reported by `reader.read_bytes()`. -/
structure LogReader where
  recordId : Nat
  items : List (Option LogAction)
  readBytes : Nat

/-- The first (validation) pass of `enact_logs` in validation mode
(db.rs lines 477-519): walk the record, calling
`column.validate_plan` on each `InsertIndex` / `InsertValue` action
and skipping `DropTable` (`continue`), until `EndRecord`; a read
error, a nested `BeginRecord` or a rejected action fails the pass.
Returns the list of `validate_plan` invocations made (column id and
action) and whether the pass succeeded.  `vp` is the external
verdict of `column.validate_plan`. -/
def validatePass (vp : Nat → LogAction → Bool) :
    List (Option LogAction) → List (Nat × LogAction) × Bool
  | [] => ([], false)
  | none :: _ => ([], false)
  | some .beginRecord :: _ => ([], false)
  | some .endRecord :: _ => ([], true)
  | some (.insertIndex c) :: rest =>
      if vp c (.insertIndex c) then
        let r := validatePass vp rest
        ((c, .insertIndex c) :: r.1, r.2)
      else ([(c, .insertIndex c)], false)
  | some (.insertValue c) :: rest =>
      if vp c (.insertValue c) then
        let r := validatePass vp rest
        ((c, .insertValue c) :: r.1, r.2)
      else ([(c, .insertValue c)], false)
  | some (.dropTable _) :: rest => validatePass vp rest

/-- The apply loop of `enact_logs` (db.rs lines 523-552): dispatch
`InsertIndex` / `InsertValue` to `column.enact_plan` (verdict `ep`)
and `DropTable` to `column.drop_index` (verdict `di`); a nested
`BeginRecord` is `Corruption`, a read error or a rejected action
aborts with an error that propagates (`?`).  Returns the
`enact_plan` invocations made, the columns whose tables were
dropped, and the error if any. -/
def applyPass (ep : Nat → LogAction → Bool) (di : Nat → Bool) :
    List (Option LogAction) → List (Nat × LogAction) × List Nat × Option DbError
  | [] => ([], [], some .io)
  | none :: _ => ([], [], some .io)
  | some .beginRecord :: _ => ([], [], some .corruption)
  | some .endRecord :: _ => ([], [], none)
  | some (.insertIndex c) :: rest =>
      if ep c (.insertIndex c) then
        let r := applyPass ep di rest
        ((c, .insertIndex c) :: r.1, r.2.1, r.2.2)
      else ([(c, .insertIndex c)], [], some .io)
  | some (.insertValue c) :: rest =>
      if ep c (.insertValue c) then
        let r := applyPass ep di rest
        ((c, .insertValue c) :: r.1, r.2.1, r.2.2)
      else ([(c, .insertValue c)], [], some .io)
  | some (.dropTable c) :: rest =>
      if di c then
        let r := applyPass ep di rest
        (r.1, c :: r.2.1, r.2.2)
      else ([], [], some .io)

/-- Result of `enact_logs`.  `result` is the `Result<bool>` value;
`clearedReplay` records a `log.clear_replay_logs()` call;
`validateCalls` / `enactCalls` list the `validate_plan` / `enact_plan`
invocations; `notifiedLogQueue` records the broadcast on the
log-queue condition variable (db.rs lines 586-588). -/
structure EnactOutcome where
  state : DbState
  result : Except DbError Bool
  clearedReplay : Bool
  validateCalls : List (Nat × LogAction)
  enactCalls : List (Nat × LogAction)
  notifiedLogQueue : Bool

/-- `DbInner::enact_logs` (db.rs lines 447-596).  `read_next` is the
result of `log.read_next(validation_mode)`.  In validation mode a bad
log header, a record id different from `last_enacted + 1`, or any
failure of the validation pass clears the remaining replay logs and
returns `Ok(false)`; only after the whole record validated does the
apply loop run (`reader.reset()` re-reads the same items).  Each
enacted `DropTable` re-arms `next_reindex` with the record id.  On
success `last_enacted` is stored and, outside validation mode, the
log-queue account is debited, broadcasting when the debit crosses
`MAX_LOG_QUEUE_BYTES` from above. -/
def enact_logs (s : DbState) (validation_mode : Bool)
    (read_next : Except DbError (Option LogReader))
    (vp ep : Nat → LogAction → Bool) (di : Nat → Bool) : EnactOutcome :=
  match read_next with
  | .error .corruption =>
      if validation_mode then
        { state := s, result := .ok false, clearedReplay := true,
          validateCalls := [], enactCalls := [], notifiedLogQueue := false }
      else
        { state := s, result := .error .corruption, clearedReplay := false,
          validateCalls := [], enactCalls := [], notifiedLogQueue := false }
  | .error e =>
      { state := s, result := .error e, clearedReplay := false,
        validateCalls := [], enactCalls := [], notifiedLogQueue := false }
  | .ok none =>
      { state := s, result := .ok false, clearedReplay := false,
        validateCalls := [], enactCalls := [], notifiedLogQueue := false }
  | .ok (some reader) =>
      if validation_mode then
        if reader.recordId ≠ s.lastEnacted + 1 then
          { state := s, result := .ok false, clearedReplay := true,
            validateCalls := [], enactCalls := [], notifiedLogQueue := false }
        else
          let v := validatePass vp reader.items
          if v.2 then
            let a := applyPass ep di reader.items
            let s1 := { s with
              nextReindex := if a.2.1.isEmpty then s.nextReindex
                             else reader.recordId }
            match a.2.2 with
            | some e =>
                { state := s1, result := .error e, clearedReplay := false,
                  validateCalls := v.1, enactCalls := a.1,
                  notifiedLogQueue := false }
            | none =>
                { state := { s1 with lastEnacted := reader.recordId },
                  result := .ok true, clearedReplay := false,
                  validateCalls := v.1, enactCalls := a.1,
                  notifiedLogQueue := false }
          else
            { state := s, result := .ok false, clearedReplay := true,
              validateCalls := v.1, enactCalls := [],
              notifiedLogQueue := false }
      else
        let a := applyPass ep di reader.items
        let s1 := { s with
          nextReindex := if a.2.1.isEmpty then s.nextReindex
                         else reader.recordId }
        match a.2.2 with
        | some e =>
            { state := s1, result := .error e, clearedReplay := false,
              validateCalls := [], enactCalls := a.1,
              notifiedLogQueue := false }
        | none =>
            let q := s.logQueueBytes - (reader.readBytes : Int)
            { state := { s1 with
                lastEnacted := reader.recordId
                logQueueBytes := q }
              result := .ok true, clearedReplay := false,
              validateCalls := [], enactCalls := a.1,
              notifiedLogQueue := decide (q ≤ MAX_LOG_QUEUE_BYTES) &&
                decide (q + (reader.readBytes : Int) > MAX_LOG_QUEUE_BYTES) }

/-- One step of the pipeline: a client `commit_raw`, a log-worker
`process_commits` pass, an `enact_logs` pass, a `process_reindex`
pass, or a worker storing an error via `store_err`. -/
inductive PipelineStep where
  | commit (changeset : List ChangeEntry)
  | logWork (o : PCOracle)
  | enact (validation_mode : Bool) (read_next : Except DbError (Option LogReader))
      (vp ep : Nat → LogAction → Bool) (di : Nat → Bool)
  | reindex (o : ReindexOracle)
  | workerErr (e : Option Nat)

/-- Effect of one pipeline step on the shared state. -/
def runStep (s : DbState) : PipelineStep → DbState
  | .commit ch => (commit_raw s ch).state
  | .logWork o => (process_commits s o).state
  | .enact vm rn vp ep di => (enact_logs s vm rn vp ep di).state
  | .reindex o => (process_reindex s o).1
  | .workerErr e => store_err s e

/-- Interleaved execution of pipeline steps from a state. -/
def runSteps (s : DbState) (steps : List PipelineStep) : DbState :=
  steps.foldl runStep s

/-- A sequence of client commits (`commit_raw` calls) applied in
order; each call uses the state left by the previous one. -/
def applyCommits (s : DbState) (css : List (List ChangeEntry)) : DbState :=
  css.foldl (fun t ch => (commit_raw t ch).state) s

/-- Specification-side helper: the value of the last changeset entry
touching column `c`, key `k` (later entries win). -/
def lastTouch : List ChangeEntry → Nat → Nat → Option (Option Value)
  | [], _, _ => none
  | e :: rest, c, k =>
      match lastTouch rest c k with
      | some v => some v
      | none => if e.1 = c ∧ e.2.1 = k then some e.2.2 else none

/-- Specification-side helper: the value of the last changeset entry
touching `(c, k)` that is actually written to the overlay, i.e. not
skipped by the ref-counted-delete exception of `commit_raw`. -/
def lastNS (rc : Nat → Bool) : List ChangeEntry → Nat → Nat → Option (Option Value)
  | [], _, _ => none
  | e :: rest, c, k =>
      match lastNS rc rest c k with
      | some v => some v
      | none =>
          if e.1 = c ∧ e.2.1 = k ∧ (!rc e.1 || e.2.2.isSome) = true
          then some e.2.2 else none

/-- Specification-side helper: the value supplied for `(c, k)` by the
most recent commit of a sequence whose changeset touches it. -/
def lastCommitTouch : List (List ChangeEntry) → Nat → Nat → Option (Option Value)
  | [], _, _ => none
  | ch :: rest, c, k =>
      match lastCommitTouch rest c k with
      | some v => some v
      | none => lastTouch ch c k

/-- Whether a changeset contains an entry for column `c`, key `k`. -/
def touches (ch : List ChangeEntry) (c k : Nat) : Bool :=
  ch.any (fun e => e.1 == c && e.2.1 == k)

/-- Specification-side helper: the overlay entry for `(c, k)` implied
by the queued commits — the id of the last queued commit whose
changeset writes `(c, k)` (non-skipped), paired with the last such
value; `none` when no queued commit writes the key. -/
def queueOverlay (rc : Nat → Bool) : List Commit → Nat → Nat → Option (Nat × Option Value)
  | [], _, _ => none
  | cm :: cms, c, k =>
      match queueOverlay rc cms c k with
      | some p => some p
      | none =>
          match lastNS rc cm.changeset c k with
          | some v => some (cm.id, v)
          | none => none

/-- The invariant tying the commit overlay to the commit queue:
queued record ids are strictly increasing and bounded by
`queue.record_id + 1`, and every overlay entry is exactly the one
implied by the queued commits. -/
def PipelineInv (s : DbState) : Prop :=
  s.queueCommits.Pairwise (fun a b => a.id < b.id) ∧
  (∀ cm ∈ s.queueCommits, cm.id ≤ s.queueRecordId + 1) ∧
  (∀ c k, alookup (s.commitOverlay c) k = queueOverlay s.refCounted s.queueCommits c k)

/-- Specification-side helper: the `InsertIndex` / `InsertValue`
actions of a record preceding its `EndRecord`, paired with their
columns — the actions on which the validation pass of `enact_logs`
invokes `validate_plan`. -/
def insertActions : List (Option LogAction) → List (Nat × LogAction)
  | some .endRecord :: _ => []
  | some (.insertIndex c) :: rest => (c, .insertIndex c) :: insertActions rest
  | some (.insertValue c) :: rest => (c, .insertValue c) :: insertActions rest
  | some (.dropTable _) :: rest => insertActions rest
  | _ => []

theorem alookup_ainsert {A : Type} (m : List (Nat × A)) (k : Nat) (a : A) (k' : Nat) :
    alookup (ainsert m k a) k' = if k' = k then some a else alookup m k' := by
  induction m with
  | nil => simp [ainsert, alookup]
  | cons p rest ih =>
      obtain ⟨k0, a0⟩ := p
      simp only [ainsert]
      by_cases h : k = k0
      · subst h
        simp only [if_pos rfl, alookup]
        by_cases h' : k' = k <;> simp [h']
      · simp only [if_neg h, alookup]
        by_cases h' : k' = k0
        · subst h'
          have hkk : ¬k' = k := fun hh => h hh.symm
          simp [hkk]
        · simp [h', ih]

theorem alookup_aerase {A : Type} (m : List (Nat × A)) (k k' : Nat) :
    alookup (aerase m k) k' = if k' = k then none else alookup m k' := by
  induction m with
  | nil => simp [aerase, alookup]
  | cons p rest ih =>
      obtain ⟨k0, a0⟩ := p
      simp only [aerase]
      by_cases h : k = k0
      · subst h
        rw [if_pos rfl, ih]
        by_cases h' : k' = k
        · simp [h']
        · simp [alookup, h']
      · rw [if_neg h]
        simp only [alookup]
        by_cases h' : k' = k0
        · subst h'
          have hkk : ¬k' = k := fun hh => h hh.symm
          simp [hkk]
        · simp [h', ih]

theorem foldl_ovWrite_lookup (rc : Nat → Bool) (rid : Nat) :
    ∀ (ch : List ChangeEntry) (ov : Nat → OverlayCol) (c k : Nat),
    alookup ((ch.foldl (ovWrite rc rid) ov) c) k =
      match lastNS rc ch c k with
      | some v => some (rid, v)
      | none => alookup (ov c) k := by
  intro ch
  induction ch with
  | nil => intro ov c k; simp [lastNS]
  | cons e ch ih =>
      obtain ⟨ec, ek, ev⟩ := e
      intro ov c k
      rw [List.foldl_cons, ih]
      rcases h : lastNS rc ch c k with _ | v
      · simp only [lastNS, h]
        by_cases hw : (!rc ec || ev.isSome) = true
        · by_cases hc : ec = c
          · subst hc
            by_cases hk : ek = k
            · subst hk
              rw [if_pos ⟨rfl, rfl, hw⟩]
              simp [ovWrite, hw, alookup_ainsert]
            · rw [if_neg (fun hcon => hk hcon.2.1)]
              have hks : ¬k = ek := fun hh => hk hh.symm
              simp [ovWrite, hw, alookup_ainsert, hks]
          · rw [if_neg (fun hcon => hc hcon.1)]
            have hcs : ¬c = ec := fun hh => hc hh.symm
            simp [ovWrite, hw, hcs]
        · rw [if_neg (fun hcon => hw hcon.2.2)]
          simp [ovWrite, hw]
      · simp [lastNS, h]

theorem foldl_ovClean_lookup (id : Nat) :
    ∀ (ch : List ChangeEntry) (ov : Nat → OverlayCol) (c k : Nat),
    alookup ((ch.foldl (ovClean id) ov) c) k =
      match alookup (ov c) k with
      | some rv => if rv.1 = id ∧ touches ch c k = true then none else some rv
      | none => none := by
  intro ch
  induction ch with
  | nil =>
      intro ov c k
      rcases h : alookup (ov c) k with _ | rv <;> simp [h, touches]
  | cons e ch ih =>
      obtain ⟨ec, ek, ev⟩ := e
      intro ov c k
      rw [List.foldl_cons, ih]
      by_cases hc : ec = c
      · subst hc
        by_cases hk : ek = k
        · subst hk
          rcases h : alookup (ov ec) ek with _ | rv
          · have hov : ovClean id ov (ec, ek, ev) = ov := by
              simp [ovClean, h]
            rw [hov, h]
          · by_cases hid : rv.1 = id
            · have hov : alookup ((ovClean id ov (ec, ek, ev)) ec) ek = none := by
                simp [ovClean, h, hid, alookup_aerase]
              rw [hov]
              simp [hid, touches]
            · have hov : ovClean id ov (ec, ek, ev) = ov := by
                simp [ovClean, h, hid]
              rw [hov, h]
              simp [hid]
        · have hov : alookup ((ovClean id ov (ec, ek, ev)) ec) k
              = alookup (ov ec) k := by
            simp only [ovClean]
            rcases h0 : alookup (ov ec) ek with _ | rv0
            · simp [h0]
            · by_cases hid : rv0.1 = id
              · have hks : ¬k = ek := fun hh => hk hh.symm
                simp [h0, hid, alookup_aerase, hks]
              · simp [h0, hid]
          have htch : touches ((ec, ek, ev) :: ch) ec k = touches ch ec k := by
            simp [touches, hk]
          rw [hov, htch]
      · have hov : alookup ((ovClean id ov (ec, ek, ev)) c) k
            = alookup (ov c) k := by
          simp only [ovClean]
          rcases h0 : alookup (ov ec) ek with _ | rv0
          · simp [h0]
          · by_cases hid : rv0.1 = id
            · have hcs : ¬c = ec := fun hh => hc hh.symm
              simp [h0, hid, hcs]
            · simp [h0, hid]
        have htch : touches ((ec, ek, ev) :: ch) c k = touches ch c k := by
          simp [touches, hc]
        rw [hov, htch]

theorem lastTouch_none_lastNS (rc : Nat → Bool) :
    ∀ (ch : List ChangeEntry) (c k : Nat),
    lastTouch ch c k = none → lastNS rc ch c k = none := by
  intro ch
  induction ch with
  | nil => intro c k _; rfl
  | cons e ch ih =>
      intro c k h
      simp only [lastTouch] at h
      rcases h0 : lastTouch ch c k with _ | v
      · rw [h0] at h
        simp only [lastNS, ih c k h0]
        by_cases hek : e.1 = c ∧ e.2.1 = k
        · rw [if_pos hek] at h; exact absurd h (by simp)
        · rw [if_neg (fun hcon => hek ⟨hcon.1, hcon.2.1⟩)]
      · rw [h0] at h; exact absurd h (by simp)

theorem lastTouch_lastNS (rc : Nat → Bool) :
    ∀ (ch : List ChangeEntry) (c k : Nat) (v : Option Value),
    lastTouch ch c k = some v → (!rc c || v.isSome) = true →
    lastNS rc ch c k = some v := by
  intro ch
  induction ch with
  | nil => intro c k v h _; exact absurd h (by simp [lastTouch])
  | cons e ch ih =>
      intro c k v h hv
      simp only [lastTouch] at h
      rcases h0 : lastTouch ch c k with _ | v'
      · rw [h0] at h
        by_cases hek : e.1 = c ∧ e.2.1 = k
        · rw [if_pos hek] at h
          have hev : e.2.2 = v := by simpa using h
          simp only [lastNS, lastTouch_none_lastNS rc ch c k h0]
          rw [if_pos ⟨hek.1, hek.2, by rw [hek.1, hev]; exact hv⟩, hev]
        · rw [if_neg (fun hcon => hek ⟨hcon.1, hcon.2⟩)] at h
          exact absurd h (by simp)
      · rw [h0] at h
        have hvv : v' = v := by simpa using h
        subst hvv
        simp only [lastNS, ih c k v' h0 hv]

theorem lastNS_touches (rc : Nat → Bool) :
    ∀ (ch : List ChangeEntry) (c k : Nat) (v : Option Value),
    lastNS rc ch c k = some v → touches ch c k = true := by
  intro ch
  induction ch with
  | nil => intro c k v h; exact absurd h (by simp [lastNS])
  | cons e ch ih =>
      intro c k v h
      simp only [lastNS] at h
      rcases h0 : lastNS rc ch c k with _ | v'
      · rw [h0] at h
        by_cases hek : e.1 = c ∧ e.2.1 = k ∧ (!rc e.1 || e.2.2.isSome) = true
        · simp [touches, hek.1, hek.2.1]
        · rw [if_neg hek] at h; exact absurd h (by simp)
      · have := ih c k v' h0
        simp [touches, List.any_cons] at this ⊢
        exact Or.inr this

theorem queueOverlay_concat (rc : Nat → Bool) :
    ∀ (cms : List Commit) (cm : Commit) (c k : Nat),
    queueOverlay rc (cms ++ [cm]) c k =
      match lastNS rc cm.changeset c k with
      | some v => some (cm.id, v)
      | none => queueOverlay rc cms c k := by
  intro cms
  induction cms with
  | nil =>
      intro cm c k
      rcases h : lastNS rc cm.changeset c k with _ | v <;>
        simp [queueOverlay, h]
  | cons cm0 cms ih =>
      intro cm c k
      rw [List.cons_append]
      simp only [queueOverlay]
      rw [ih]
      rcases h : lastNS rc cm.changeset c k with _ | v <;> simp [h]

theorem queueOverlay_mem (rc : Nat → Bool) :
    ∀ (cms : List Commit) (c k : Nat) (p : Nat × Option Value),
    queueOverlay rc cms c k = some p →
    ∃ cm, cm ∈ cms ∧ cm.id = p.1 ∧ lastNS rc cm.changeset c k = some p.2 := by
  intro cms
  induction cms with
  | nil => intro c k p h; exact absurd h (by simp [queueOverlay])
  | cons cm0 cms ih =>
      intro c k p h
      simp only [queueOverlay] at h
      rcases h0 : queueOverlay rc cms c k with _ | p'
      · rw [h0] at h
        rcases h1 : lastNS rc cm0.changeset c k with _ | v
        · rw [h1] at h; exact absurd h (by simp)
        · rw [h1] at h
          have hp : (cm0.id, v) = p := by simpa using h
          refine ⟨cm0, List.mem_cons_self _ _, ?_, ?_⟩
          · rw [← hp]
          · rw [← hp]; exact h1
      · rw [h0] at h
        have hp : p' = p := by simpa using h
        subst hp
        obtain ⟨cm, hmem, hid, hns⟩ := ih c k p' h0
        exact ⟨cm, List.mem_cons_of_mem _ hmem, hid, hns⟩

theorem commit_raw_bgErr_some (s : DbState) (ch : List ChangeEntry) (e : Nat)
    (h : s.bgErr = some e) :
    (commit_raw s ch).state = s ∧
    (commit_raw s ch).err = some (.background e) := by
  simp [commit_raw, h]

theorem commit_raw_bgErr_none_state (s : DbState) (ch : List ChangeEntry)
    (h : s.bgErr = none) :
    (commit_raw s ch).state = { s with
      queueRecordId := s.queueRecordId + 1
      commitOverlay := ch.foldl (ovWrite s.refCounted (s.queueRecordId + 2)) s.commitOverlay
      queueCommits := s.queueCommits ++
        [⟨s.queueRecordId + 2, ch.foldl (fun b e => b + entryBytes e) 0, ch⟩]
      queueBytes := s.queueBytes + ch.foldl (fun b e => b + entryBytes e) 0 } ∧
    (commit_raw s ch).err = none := by
  simp [commit_raw, h]

theorem commit_raw_overlay_lookup (s : DbState) (ch : List ChangeEntry) (c k : Nat)
    (h : s.bgErr = none) :
    alookup ((commit_raw s ch).state.commitOverlay c) k =
      match lastNS s.refCounted ch c k with
      | some v => some (s.queueRecordId + 2, v)
      | none => alookup (s.commitOverlay c) k := by
  rw [(commit_raw_bgErr_none_state s ch h).1]
  exact foldl_ovWrite_lookup s.refCounted (s.queueRecordId + 2) ch s.commitOverlay c k

theorem commit_raw_frame (s : DbState) (ch : List ChangeEntry) :
    (commit_raw s ch).state.bgErr = s.bgErr ∧
    (commit_raw s ch).state.refCounted = s.refCounted ∧
    (commit_raw s ch).state.backing = s.backing ∧
    (commit_raw s ch).state.lastEnacted = s.lastEnacted := by
  rcases h : s.bgErr with _ | e <;> simp [commit_raw, h]

theorem process_commits_nil (s : DbState) (o : PCOracle) (h : s.queueCommits = []) :
    (process_commits s o).state = s ∧ (process_commits s o).didWork = false := by
  simp [process_commits, h]

theorem process_commits_cons (s : DbState) (o : PCOracle) (cm : Commit)
    (rest : List Commit) (h : s.queueCommits = cm :: rest) :
    (process_commits s o).state = { s with
      queueCommits := rest
      queueBytes := s.queueBytes - cm.bytes
      logQueueBytes := s.logQueueBytes + (o.recordBytes : Int)
      commitOverlay := cm.changeset.foldl (ovClean cm.id) s.commitOverlay
      nextReindex := if o.needReindex then o.logRecordId else s.nextReindex } := by
  simp [process_commits, h]

theorem enact_logs_frame (s : DbState) (vm : Bool)
    (rn : Except DbError (Option LogReader)) (vp ep : Nat → LogAction → Bool)
    (di : Nat → Bool) :
    (enact_logs s vm rn vp ep di).state.commitOverlay = s.commitOverlay ∧
    (enact_logs s vm rn vp ep di).state.queueCommits = s.queueCommits ∧
    (enact_logs s vm rn vp ep di).state.queueRecordId = s.queueRecordId ∧
    (enact_logs s vm rn vp ep di).state.refCounted = s.refCounted ∧
    (enact_logs s vm rn vp ep di).state.queueBytes = s.queueBytes ∧
    (enact_logs s vm rn vp ep di).state.backing = s.backing ∧
    (enact_logs s vm rn vp ep di).state.bgErr = s.bgErr := by
  rcases rn with e | ro
  · rcases e <;> rcases vm <;> simp [enact_logs]
  · rcases ro with _ | reader
    · rcases vm <;> simp [enact_logs]
    · rcases vm <;> simp only [enact_logs] <;> (repeat' split) <;> simp

theorem process_reindex_frame (s : DbState) (o : ReindexOracle) :
    (process_reindex s o).1.commitOverlay = s.commitOverlay ∧
    (process_reindex s o).1.queueCommits = s.queueCommits ∧
    (process_reindex s o).1.queueRecordId = s.queueRecordId ∧
    (process_reindex s o).1.refCounted = s.refCounted ∧
    (process_reindex s o).1.backing = s.backing ∧
    (process_reindex s o).1.bgErr = s.bgErr := by
  unfold process_reindex
  (repeat' split) <;> simp

theorem store_err_frame (s : DbState) (r : Option Nat) :
    (store_err s r).commitOverlay = s.commitOverlay ∧
    (store_err s r).queueCommits = s.queueCommits ∧
    (store_err s r).queueRecordId = s.queueRecordId ∧
    (store_err s r).refCounted = s.refCounted ∧
    (store_err s r).backing = s.backing := by
  unfold store_err
  (repeat' split) <;> simp

theorem pipelineInv_of_fields (s t : DbState)
    (h1 : t.queueCommits = s.queueCommits)
    (h2 : t.queueRecordId = s.queueRecordId)
    (h3 : t.commitOverlay = s.commitOverlay)
    (h4 : t.refCounted = s.refCounted)
    (hInv : PipelineInv s) : PipelineInv t := by
  obtain ⟨hpw, hb, hov⟩ := hInv
  refine ⟨by rw [h1]; exact hpw, ?_, ?_⟩
  · intro cm hmem
    rw [h2]
    exact hb cm (by rw [← h1]; exact hmem)
  · intro c k
    rw [h3, h4, h1]
    exact hov c k

theorem pipelineInv_open (r : Option Nat) (n : Nat) (rc : Nat → Bool)
    (bk : Nat → Nat → Option Value) : PipelineInv (db_open r n rc bk) := by
  refine ⟨?_, ?_, ?_⟩
  · simp [db_open]
  · intro cm hmem; simp [db_open] at hmem
  · intro c k; simp [db_open, alookup, queueOverlay]

theorem pipelineInv_commit (s : DbState) (ch : List ChangeEntry)
    (hInv : PipelineInv s) : PipelineInv (commit_raw s ch).state := by
  rcases hs : s.bgErr with _ | e
  case some => rw [(commit_raw_bgErr_some s ch e hs).1]; exact hInv
  · obtain ⟨hpw, hbound, hov⟩ := hInv
    rw [(commit_raw_bgErr_none_state s ch hs).1]
    refine ⟨?_, ?_, ?_⟩
    · dsimp only
      rw [List.pairwise_append]
      refine ⟨hpw, List.pairwise_singleton _ _, ?_⟩
      intro a ha b hb
      have hb' : b.id = s.queueRecordId + 2 := by
        simp at hb; rw [hb]
      have := hbound a ha
      omega
    · intro cm' hmem
      dsimp only at hmem ⊢
      rcases List.mem_append.mp hmem with hold | hnew
      · have := hbound cm' hold; omega
      · have : cm'.id = s.queueRecordId + 2 := by
          simp at hnew; rw [hnew]
        omega
    · intro c k
      dsimp only
      rw [foldl_ovWrite_lookup, queueOverlay_concat]
      rcases h : lastNS s.refCounted ch c k with _ | v
      · simp only [h]
        exact hov c k
      · simp only [h]

theorem pipelineInv_logWork (s : DbState) (o : PCOracle)
    (hInv : PipelineInv s) : PipelineInv (process_commits s o).state := by
  rcases hq : s.queueCommits with _ | ⟨cm, rest⟩
  · rw [(process_commits_nil s o hq).1]; exact hInv
  · obtain ⟨hpw, hbound, hov⟩ := hInv
    rw [hq] at hpw
    rw [process_commits_cons s o cm rest hq]
    refine ⟨?_, ?_, ?_⟩
    · dsimp only
      exact (List.pairwise_cons.mp hpw).2
    · intro cm' hmem
      dsimp only at hmem ⊢
      exact hbound cm' (by rw [hq]; exact List.mem_cons_of_mem _ hmem)
    · intro c k
      dsimp only
      rw [foldl_ovClean_lookup, hov c k, hq]
      simp only [queueOverlay]
      rcases h0 : queueOverlay s.refCounted rest c k with _ | p
      · rcases h1 : lastNS s.refCounted cm.changeset c k with _ | v
        · simp [h0, h1]
        · have ht := lastNS_touches s.refCounted cm.changeset c k v h1
          simp [h0, h1, ht]
      · obtain ⟨cm', hmem, hid, _⟩ := queueOverlay_mem s.refCounted rest c k p h0
        have hlt : cm.id < cm'.id := (List.pairwise_cons.mp hpw).1 cm' hmem
        have hne : ¬p.1 = cm.id := by omega
        simp [h0, hne]

theorem runSteps_inv (steps : List PipelineStep) :
    ∀ s : DbState, PipelineInv s → PipelineInv (runSteps s steps) := by
  induction steps with
  | nil => intro s h; exact h
  | cons st steps ih =>
      intro s h
      rw [runSteps, List.foldl_cons]
      apply ih
      rcases st with ch | o | ⟨vm, rn, vp, ep, di⟩ | o | e
      · exact pipelineInv_commit s ch h
      · exact pipelineInv_logWork s o h
      · exact pipelineInv_of_fields s _ (enact_logs_frame s vm rn vp ep di).2.1
          (enact_logs_frame s vm rn vp ep di).2.2.1
          (enact_logs_frame s vm rn vp ep di).1
          (enact_logs_frame s vm rn vp ep di).2.2.2.1 h
      · exact pipelineInv_of_fields s _ (process_reindex_frame s o).2.1
          (process_reindex_frame s o).2.2.1
          (process_reindex_frame s o).1
          (process_reindex_frame s o).2.2.2.1 h
      · exact pipelineInv_of_fields s _ (store_err_frame s e).2.1
          (store_err_frame s e).2.2.1
          (store_err_frame s e).1
          (store_err_frame s e).2.2.2.1 h

theorem applyCommits_cons (s : DbState) (ch : List ChangeEntry)
    (css : List (List ChangeEntry)) :
    applyCommits s (ch :: css) = applyCommits (commit_raw s ch).state css := rfl

theorem applyCommits_untouched (css : List (List ChangeEntry)) :
    ∀ (s : DbState) (c k : Nat), lastCommitTouch css c k = none →
    alookup ((applyCommits s css).commitOverlay c) k = alookup (s.commitOverlay c) k := by
  induction css with
  | nil => intro s c k _; rfl
  | cons ch css ih =>
      intro s c k h
      simp only [lastCommitTouch] at h
      rcases h0 : lastCommitTouch css c k with _ | v
      · rw [h0] at h
        rw [applyCommits_cons, ih _ c k h0]
        rcases hs : s.bgErr with _ | e
        · rw [commit_raw_overlay_lookup s ch c k hs]
          rw [lastTouch_none_lastNS s.refCounted ch c k h]
        · rw [(commit_raw_bgErr_some s ch e hs).1]
      · rw [h0] at h; exact absurd h (by simp)

theorem applyCommits_get (css : List (List ChangeEntry)) :
    ∀ (s : DbState) (c k : Nat) (v : Option Value), s.bgErr = none →
    lastCommitTouch css c k = some v → (!s.refCounted c || v.isSome) = true →
    db_get (applyCommits s css) c k = v := by
  induction css with
  | nil => intro s c k v _ h _; exact absurd h (by simp [lastCommitTouch])
  | cons ch css ih =>
      intro s c k v hbg h hv
      simp only [lastCommitTouch] at h
      rcases h0 : lastCommitTouch css c k with _ | v'
      · rw [h0] at h
        rw [applyCommits_cons]
        have hns := lastTouch_lastNS s.refCounted ch c k v h hv
        have hover : alookup ((commit_raw s ch).state.commitOverlay c) k
            = some (s.queueRecordId + 2, v) := by
          rw [commit_raw_overlay_lookup s ch c k hbg, hns]
        have huntouched := applyCommits_untouched css ((commit_raw s ch).state) c k h0
        unfold db_get
        rw [huntouched, hover]
      · rw [h0] at h
        have hvv : v' = v := by simpa using h
        subst hvv
        rw [applyCommits_cons]
        apply ih
        · rw [(commit_raw_frame s ch).1]; exact hbg
        · exact h0
        · rw [(commit_raw_frame s ch).2.1]; exact hv

theorem applyCommits_bgErr (css : List (List ChangeEntry)) :
    ∀ s : DbState, (applyCommits s css).bgErr = s.bgErr := by
  induction css with
  | nil => intro s; rfl
  | cons ch css ih =>
      intro s
      rw [applyCommits_cons, ih, (commit_raw_frame s ch).1]

/-- C1 counterexample: on a ref-counted column, a commit writing
`some [1]` to key 5 followed by a successful commit deleting key 5
leaves `get` returning `some [1]`, not the `none` supplied by the most
recent commit touching the key: the deletion installed no overlay
write before `commit` returned. -/
theorem C1_cex_refcounted_delete :
    (commit_raw (db_open none 1 (fun _ => true) (fun _ _ => none))
      [(0, 5, some [1])]).err = none ∧
    (commit_raw (commit_raw (db_open none 1 (fun _ => true) (fun _ _ => none))
      [(0, 5, some [1])]).state [(0, 5, none)]).err = none ∧
    lastCommitTouch [[(0, 5, some [1])], [(0, 5, none)]] 0 5 = some none ∧
    db_get (applyCommits (db_open none 1 (fun _ => true) (fun _ _ => none))
      [[(0, 5, some [1])], [(0, 5, none)]]) 0 5 = some [1] := by
  exact ⟨rfl, rfl, by decide, by decide⟩

/-- C1 (amended): for every sequence of successful `commit` calls
followed by `get` on the same engine, `get` returns the value
(including `none` for a delete) supplied by the most recent commit
touching that column and key, PROVIDED that value is not a deletion
on a ref-counted column (such a deletion writes no overlay entry, so
the previous overlay entry or the durable value stays visible until
enact).  The overlay write happens inside `commit_raw` before it
returns and `db_get` consults the overlay before the column. -/
theorem C1_read_your_writes (s : DbState) (css : List (List ChangeEntry))
    (c k : Nat) (v : Option Value)
    (hbg : s.bgErr = none)
    (hlast : lastCommitTouch css c k = some v)
    (hns : (!s.refCounted c || v.isSome) = true) :
    (applyCommits s css).bgErr = none ∧ db_get (applyCommits s css) c k = v :=
  ⟨by rw [applyCommits_bgErr]; exact hbg,
   applyCommits_get css s c k v hbg hlast hns⟩

/-- C1 witness: on a non-ref-counted column, a write of `[1]` to
key 5 followed by a delete of key 5 makes `get` observe the delete. -/
theorem C1_read_your_writes_witness :
    db_get (applyCommits (db_open none 1 (fun _ => false) (fun _ _ => none))
      [[(0, 5, some [1]), (0, 6, some [2])], [(0, 5, none)]]) 0 5 = none :=
  (C1_read_your_writes (db_open none 1 (fun _ => false) (fun _ _ => none))
    [[(0, 5, some [1]), (0, 6, some [2])], [(0, 5, none)]] 0 5 none
    rfl (by decide) (by decide)).2

/-- C2 counterexample: the overlay entry `(2, some [1])` written by
commit 2 is removed by the log worker pass `process_commits` while
record 2 has not been enacted (`last_enacted` is still 1 and no enact
stage ran), refuting that the entry remains until enactment and that
only the enact stage removes it. -/
theorem C2_cex_removed_before_enact :
    alookup ((commit_raw (db_open none 1 (fun _ => false) (fun _ _ => none))
      [(0, 5, some [1])]).state.commitOverlay 0) 5 = some (2, some [1]) ∧
    alookup ((process_commits (commit_raw (db_open none 1 (fun _ => false)
      (fun _ _ => none)) [(0, 5, some [1])]).state ⟨10, 2, false⟩).state.commitOverlay 0) 5
      = none ∧
    (process_commits (commit_raw (db_open none 1 (fun _ => false) (fun _ _ => none))
      [(0, 5, some [1])]).state ⟨10, 2, false⟩).state.lastEnacted = 1 := by
  exact ⟨by decide, by decide, by decide⟩

/-- C2 (amended): an overlay entry `(r, v)` for key `k` is present iff
the commit with id `r` is still queued (not yet serialised to the WAL
by the log worker) and is the last queued commit writing `k`; it is
`process_commits` — the log-write stage, not the enact stage — that
removes the entry, and only when the stored record id equals the id of
the commit being processed, while `enact_logs` never modifies the
commit overlay.  Formally: in every state reachable from `open` by
pipeline steps the overlay lookup coincides with the entry implied by
the queued commits, and `enact_logs` preserves the overlay. -/
theorem C2_overlay_matches_queue :
    (∀ (r : Option Nat) (n : Nat) (rc : Nat → Bool) (bk : Nat → Nat → Option Value)
        (steps : List PipelineStep) (c k : Nat),
      alookup ((runSteps (db_open r n rc bk) steps).commitOverlay c) k =
        queueOverlay (runSteps (db_open r n rc bk) steps).refCounted
          (runSteps (db_open r n rc bk) steps).queueCommits c k) ∧
    (∀ (s : DbState) (vm : Bool) (rn : Except DbError (Option LogReader))
        (vp ep : Nat → LogAction → Bool) (di : Nat → Bool),
      (enact_logs s vm rn vp ep di).state.commitOverlay = s.commitOverlay) := by
  constructor
  · intro r n rc bk steps c k
    exact (runSteps_inv steps _ (pipelineInv_open r n rc bk)).2.2 c k
  · intro s vm rn vp ep di
    exact (enact_logs_frame s vm rn vp ep di).1

/-- C3 counterexample: a commit on a ref-counted column containing the
entry `(0, 7, none)` nevertheless installs an overlay entry for key 7,
because an earlier entry of the same changeset wrote `some [2]`; the
claim quantifier over commits containing a deletion entry is refuted. -/
theorem C3_cex_mixed_changeset :
    alookup ((commit_raw (db_open none 1 (fun _ => true) (fun _ _ => none))
      [(0, 7, some [2]), (0, 7, none)]).state.commitOverlay 0) 7
      = some (2, some [2]) := by decide

/-- C3 (amended): per changeset entry, `commit_raw` writes the overlay
entry `(record_id, value)` for `(col, k)` unless the column is
ref-counted and the value is a deletion, which writes nothing; the
resulting overlay entry for `(col, k)` is therefore the last
non-skipped write of the changeset with the commit record id
`queue.record_id + 2`, and is unchanged (never masking the durable
value) when every entry of the commit for `(col, k)` is a ref-counted
deletion. -/
theorem C3_overlay_write_rule (s : DbState) (ch : List ChangeEntry) (c k : Nat)
    (hbg : s.bgErr = none) :
    alookup ((commit_raw s ch).state.commitOverlay c) k =
      match lastNS s.refCounted ch c k with
      | some v => some (s.queueRecordId + 2, v)
      | none => alookup (s.commitOverlay c) k :=
  commit_raw_overlay_lookup s ch c k hbg

/-- C3 witness: a pure ref-counted deletion installs nothing for
column 0, while the same deletion on the non-ref-counted column 1
installs `(2, none)`. -/
theorem C3_overlay_write_rule_witness :
    alookup ((commit_raw (db_open none 2 (fun c => c == 0) (fun _ _ => none))
      [(0, 9, none), (1, 9, none)]).state.commitOverlay 0) 9 = none ∧
    alookup ((commit_raw (db_open none 2 (fun c => c == 0) (fun _ _ => none))
      [(0, 9, none), (1, 9, none)]).state.commitOverlay 1) 9 = some (2, none) :=
  ⟨(C3_overlay_write_rule (db_open none 2 (fun c => c == 0) (fun _ _ => none))
      [(0, 9, none), (1, 9, none)] 0 9 rfl).trans (by decide),
   (C3_overlay_write_rule (db_open none 2 (fun c => c == 0) (fun _ _ => none))
      [(0, 9, none), (1, 9, none)] 1 9 rfl).trans (by decide)⟩

/-- C4: when `process_commits` processes the front commit, the overlay
entry for each key of its changeset is removed iff the stored record
id equals the processed commit id; an entry carrying any other id —
in particular a greater one from a later write — survives, and keys
outside the changeset are untouched. -/
theorem C4_cleanup_removes_matching_id (s : DbState) (o : PCOracle) (cm : Commit)
    (rest : List Commit) (h : s.queueCommits = cm :: rest) (c k : Nat) :
    (alookup ((process_commits s o).state.commitOverlay c) k =
      match alookup (s.commitOverlay c) k with
      | some rv => if rv.1 = cm.id ∧ touches cm.changeset c k = true then none
                   else some rv
      | none => none) ∧
    (∀ rv, alookup (s.commitOverlay c) k = some rv → ¬rv.1 = cm.id →
      alookup ((process_commits s o).state.commitOverlay c) k = some rv) := by
  have hmain : alookup ((process_commits s o).state.commitOverlay c) k =
      match alookup (s.commitOverlay c) k with
      | some rv => if rv.1 = cm.id ∧ touches cm.changeset c k = true then none
                   else some rv
      | none => none := by
    rw [process_commits_cons s o cm rest h]
    dsimp only
    rw [foldl_ovClean_lookup]
  refine ⟨hmain, ?_⟩
  intro rv hrv hne
  rw [hmain, hrv]
  simp [hne]

/-- C4 witness: processing commit 2 removes its own overlay entry for
key 5 (stored id 2 equals the commit id). -/
theorem C4_cleanup_removes_matching_id_witness :
    alookup ((process_commits (commit_raw (db_open none 1 (fun _ => false)
      (fun _ _ => none)) [(0, 5, some [1])]).state ⟨10, 3, false⟩).state.commitOverlay 0) 5
      = none :=
  ((C4_cleanup_removes_matching_id
      (commit_raw (db_open none 1 (fun _ => false) (fun _ _ => none))
        [(0, 5, some [1])]).state
      ⟨10, 3, false⟩ ⟨2, 33, [(0, 5, some [1])]⟩ [] (by decide) 0 5).1).trans (by decide)

/-- C5: a successful `commit_raw` advances `queue.record_id` by
exactly 1 and assigns the id `queue.record_id + 2` (relative to the
pre-call counter) to the pushed commit; the ids of two successive
accepted commits are `r + 2` and `r + 3`, hence strictly increasing. -/
theorem C5_record_id_allocation (s : DbState) (ch ch' : List ChangeEntry)
    (hbg : s.bgErr = none) :
    (commit_raw s ch).err = none ∧
    (commit_raw s ch).state.queueRecordId = s.queueRecordId + 1 ∧
    (∃ cm cm' : Commit,
      (commit_raw s ch).state.queueCommits = s.queueCommits ++ [cm] ∧
      cm.id = s.queueRecordId + 2 ∧ cm.changeset = ch ∧
      (commit_raw (commit_raw s ch).state ch').state.queueCommits =
        (commit_raw s ch).state.queueCommits ++ [cm'] ∧
      cm'.id = s.queueRecordId + 3 ∧ cm.id < cm'.id) := by
  obtain ⟨hstate, herr⟩ := commit_raw_bgErr_none_state s ch hbg
  have hbg1 : (commit_raw s ch).state.bgErr = none := by
    rw [(commit_raw_frame s ch).1]; exact hbg
  obtain ⟨hstate1, _⟩ := commit_raw_bgErr_none_state (commit_raw s ch).state ch' hbg1
  refine ⟨herr, by rw [hstate], ?_⟩
  refine ⟨⟨s.queueRecordId + 2, ch.foldl (fun b e => b + entryBytes e) 0, ch⟩,
    ⟨(commit_raw s ch).state.queueRecordId + 2,
      ch'.foldl (fun b e => b + entryBytes e) 0, ch'⟩, ?_, rfl, rfl, ?_, ?_, ?_⟩
  · rw [hstate]
  · rw [hstate1]
  · rw [hstate]
  · rw [hstate]
    simp

/-- C5 witness: from a fresh engine (counter 0), the first commit is
accepted and the counter advances to 1. -/
theorem C5_record_id_allocation_witness :
    (commit_raw (db_open none 1 (fun _ => false) (fun _ _ => none)) []).err = none ∧
    (commit_raw (db_open none 1 (fun _ => false) (fun _ _ => none))
      []).state.queueRecordId = 0 + 1 :=
  ⟨(C5_record_id_allocation (db_open none 1 (fun _ => false) (fun _ _ => none))
      [] [] rfl).1,
   (C5_record_id_allocation (db_open none 1 (fun _ => false) (fun _ _ => none))
      [] [] rfl).2.1⟩

/-- C6: when the background-error slot holds an error, `commit_raw`
returns `Err(Background(err))` carrying the stored error and leaves
the whole state — queue, `queue.bytes`, `queue.record_id` and the
commit overlay — unchanged; moreover `store_err` never overwrites the
first stored error. -/
theorem C6_background_error_fails_commit (s : DbState) (ch : List ChangeEntry)
    (e : Nat) (h : s.bgErr = some e) :
    (commit_raw s ch).err = some (DbError.background e) ∧
    (commit_raw s ch).state = s ∧
    (commit_raw s ch).state.queueCommits = s.queueCommits ∧
    (commit_raw s ch).state.queueBytes = s.queueBytes ∧
    (commit_raw s ch).state.queueRecordId = s.queueRecordId ∧
    (commit_raw s ch).state.commitOverlay = s.commitOverlay ∧
    (∀ e', (store_err s (some e')).bgErr = some e) := by
  obtain ⟨hstate, herr⟩ := commit_raw_bgErr_some s ch e h
  refine ⟨herr, hstate, by rw [hstate], by rw [hstate], by rw [hstate],
    by rw [hstate], ?_⟩
  intro e'
  simp [store_err, h]

/-- C6 witness: after a worker stored error 7, a commit fails with
`Background 7`. -/
theorem C6_background_error_fails_commit_witness :
    (commit_raw (store_err (db_open none 1 (fun _ => false) (fun _ _ => none))
      (some 7)) [(0, 1, none)]).err = some (DbError.background 7) :=
  (C6_background_error_fails_commit
    (store_err (db_open none 1 (fun _ => false) (fun _ _ => none)) (some 7))
    [(0, 1, none)] 7 rfl).1

theorem validatePass_calls_eq (vp : Nat → LogAction → Bool) :
    ∀ items : List (Option LogAction), (validatePass vp items).2 = true →
    (validatePass vp items).1 = insertActions items := by
  intro items
  induction items with
  | nil => intro h; exact absurd h (by simp [validatePass])
  | cons it rest ih =>
      rcases it with _ | act
      · intro h; exact absurd h (by simp [validatePass])
      · rcases act with _ | _ | c | c | t
        · intro h; exact absurd h (by simp [validatePass])
        · intro _; simp [validatePass, insertActions]
        · intro h
          by_cases hv : vp c (.insertIndex c) = true
          · simp only [validatePass, hv, if_true] at h ⊢
            simp only [insertActions]
            rw [ih h]
          · simp [validatePass, hv] at h
        · intro h
          by_cases hv : vp c (.insertValue c) = true
          · simp only [validatePass, hv, if_true] at h ⊢
            simp only [insertActions]
            rw [ih h]
          · simp [validatePass, hv] at h
        · intro h
          simp only [validatePass] at h ⊢
          simp only [insertActions]
          exact ih h

theorem insertActions_no_drop :
    ∀ (items : List (Option LogAction)) (p : Nat × LogAction),
    p ∈ insertActions items → ∀ t, p.2 ≠ LogAction.dropTable t := by
  intro items
  induction items with
  | nil => intro p h; exact absurd h (by simp [insertActions])
  | cons it rest ih =>
      rcases it with _ | act
      · intro p h; exact absurd h (by simp [insertActions])
      · rcases act with _ | _ | c | c | t0
        · intro p h; exact absurd h (by simp [insertActions])
        · intro p h; exact absurd h (by simp [insertActions])
        · intro p h t
          simp only [insertActions, List.mem_cons] at h
          rcases h with h | h
          · rw [h]; simp
          · exact ih p h t
        · intro p h t
          simp only [insertActions, List.mem_cons] at h
          rcases h with h | h
          · rw [h]; simp
          · exact ih p h t
        · intro p h t
          simp only [insertActions] at h
          exact ih p h t

/-- C7: in validation-mode replay, a corrupt log header, a record id
different from `last_enacted + 1`, or any validation failure (a read
error, an unexpected `BeginRecord`, or a column rejecting an action)
makes `enact_logs` return `Ok(false)` — not an error — clear the
remaining replay logs, and leave the state untouched with no
`enact_plan` call; conversely, any `enact_plan` call implies the whole
record validated successfully at the expected id. -/
theorem C7_validation_failure_discards (s : DbState)
    (rn : Except DbError (Option LogReader)) (vp ep : Nat → LogAction → Bool)
    (di : Nat → Bool) :
    (rn = .error DbError.corruption →
      (enact_logs s true rn vp ep di).result = .ok false ∧
      (enact_logs s true rn vp ep di).clearedReplay = true ∧
      (enact_logs s true rn vp ep di).state = s ∧
      (enact_logs s true rn vp ep di).enactCalls = []) ∧
    (∀ reader, rn = .ok (some reader) →
      (reader.recordId ≠ s.lastEnacted + 1 ∨ (validatePass vp reader.items).2 = false) →
      (enact_logs s true rn vp ep di).result = .ok false ∧
      (enact_logs s true rn vp ep di).clearedReplay = true ∧
      (enact_logs s true rn vp ep di).state = s ∧
      (enact_logs s true rn vp ep di).enactCalls = []) ∧
    (∀ reader, rn = .ok (some reader) →
      (enact_logs s true rn vp ep di).enactCalls ≠ [] →
      reader.recordId = s.lastEnacted + 1 ∧ (validatePass vp reader.items).2 = true) := by
  refine ⟨?_, ?_, ?_⟩
  · intro h; subst h
    simp [enact_logs]
  · intro reader h hfail; subst h
    by_cases hid : reader.recordId = s.lastEnacted + 1
    · have hv : (validatePass vp reader.items).2 = false := by
        rcases hfail with h1 | h2
        · exact absurd hid h1
        · exact h2
      simp [enact_logs, hid, hv]
    · simp [enact_logs, hid]
  · intro reader h hne; subst h
    by_cases hid : reader.recordId = s.lastEnacted + 1
    · by_cases hv : (validatePass vp reader.items).2 = true
      · exact ⟨hid, hv⟩
      · have hv' : (validatePass vp reader.items).2 = false := by
          simpa using hv
        exact absurd (by simp [enact_logs, hid, hv']) hne
    · exact absurd (by simp [enact_logs, hid]) hne

/-- C7 witness: a replay record with id 5 while `last_enacted` is 1
is discarded: `enact_logs` returns `Ok(false)` and clears the replay
logs. -/
theorem C7_validation_failure_discards_witness :
    (enact_logs (db_open none 1 (fun _ => false) (fun _ _ => none)) true
      (.ok (some ⟨5, [some .endRecord], 3⟩)) (fun _ _ => true) (fun _ _ => true)
      (fun _ => true)).result = .ok false ∧
    (enact_logs (db_open none 1 (fun _ => false) (fun _ _ => none)) true
      (.ok (some ⟨5, [some .endRecord], 3⟩)) (fun _ _ => true) (fun _ _ => true)
      (fun _ => true)).clearedReplay = true := by
  have h := (C7_validation_failure_discards
    (db_open none 1 (fun _ => false) (fun _ _ => none))
    (.ok (some ⟨5, [some .endRecord], 3⟩)) (fun _ _ => true) (fun _ _ => true)
    (fun _ => true)).2.1 ⟨5, [some .endRecord], 3⟩ rfl (Or.inl (by decide))
  exact ⟨h.1, h.2.1⟩

/-- C8 counterexample: a record consisting of a `DropTable` action
passes validation with an empty list of `validate_plan` invocations —
`validate_plan` is not called on the `DropTable` action, contradicting
that it is invoked on every action other than `EndRecord` — and the
record is then applied successfully. -/
theorem C8_cex_droptable_skipped :
    (enact_logs (db_open none 1 (fun _ => false) (fun _ _ => none)) true
      (.ok (some ⟨2, [some (.dropTable 0), some .endRecord], 3⟩))
      (fun _ _ => true) (fun _ _ => true) (fun _ => true)).validateCalls = [] ∧
    (enact_logs (db_open none 1 (fun _ => false) (fun _ _ => none)) true
      (.ok (some ⟨2, [some (.dropTable 0), some .endRecord], 3⟩))
      (fun _ _ => true) (fun _ _ => true) (fun _ => true)).result = .ok true := by
  exact ⟨rfl, rfl⟩

/-- C8 (amended): the validation pass of validation-mode replay calls
`validate_plan` exactly on the `InsertIndex` and `InsertValue` actions
of the record preceding `EndRecord`, in order; `DropTable` actions are
skipped by the validation pass (they take effect only in the apply
pass), so no `validate_plan` call ever carries a `DropTable` action. -/
theorem C8_validate_calls_insert_only (s : DbState) (reader : LogReader)
    (vp ep : Nat → LogAction → Bool) (di : Nat → Bool)
    (hid : reader.recordId = s.lastEnacted + 1)
    (hok : (validatePass vp reader.items).2 = true) :
    (enact_logs s true (.ok (some reader)) vp ep di).validateCalls =
      insertActions reader.items ∧
    (∀ p ∈ insertActions reader.items, ∀ t, p.2 ≠ LogAction.dropTable t) := by
  constructor
  · have hcalls := validatePass_calls_eq vp reader.items hok
    rcases ha : (applyPass ep di reader.items).2.2 with _ | e
    · simp [enact_logs, hid, hok, ha, hcalls]
    · simp [enact_logs, hid, hok, ha, hcalls]
  · exact insertActions_no_drop reader.items

/-- C8 witness: a record with one `InsertIndex`, one `DropTable` and
one `InsertValue` yields exactly the two insert actions as
`validate_plan` calls. -/
theorem C8_validate_calls_insert_only_witness :
    (enact_logs (db_open none 2 (fun _ => false) (fun _ _ => none)) true
      (.ok (some ⟨2, [some (.insertIndex 0), some (.dropTable 1),
        some (.insertValue 1), some .endRecord], 9⟩))
      (fun _ _ => true) (fun _ _ => true) (fun _ => true)).validateCalls =
      [(0, LogAction.insertIndex 0), (1, LogAction.insertValue 1)] :=
  ((C8_validate_calls_insert_only (db_open none 2 (fun _ => false) (fun _ _ => none))
    ⟨2, [some (.insertIndex 0), some (.dropTable 1), some (.insertValue 1),
      some .endRecord], 9⟩
    (fun _ _ => true) (fun _ _ => true) (fun _ => true) rfl (by decide)).1).trans
    (by decide)

/-- C9: backpressure on both axes, rendered through the wait guards
and wake conditions of the embedded code: `commit_raw` finds the
queue-full wait guard set exactly when `queue.bytes` exceeds
`MAX_COMMIT_QUEUE_BYTES`; a `process_commits` pop notifies the
waiting producer exactly when the debit crosses that bound from
above; `process_commits` finds the log-queue wait guard set exactly
when the engine is not shutting down and the log-queue account
exceeds `MAX_LOG_QUEUE_BYTES`; and a successful non-validation
`enact_logs` broadcasts on the log-queue condition variable exactly
when its debit crosses that bound from above. -/
theorem C9_backpressure_guards :
    (∀ (s : DbState) (ch : List ChangeEntry),
      ((commit_raw s ch).waitedQueueFull = true ↔
        s.queueBytes > MAX_COMMIT_QUEUE_BYTES)) ∧
    (∀ (s : DbState) (o : PCOracle),
      ((process_commits s o).waitedLogQueue = true ↔
        (s.shutdownFlag = false ∧ s.logQueueBytes > MAX_LOG_QUEUE_BYTES))) ∧
    (∀ (s : DbState) (o : PCOracle) (cm : Commit) (rest : List Commit),
      s.queueCommits = cm :: rest → cm.bytes ≤ s.queueBytes →
      ((process_commits s o).notifiedProducer = true ↔
        (s.queueBytes > MAX_COMMIT_QUEUE_BYTES ∧
          s.queueBytes - cm.bytes ≤ MAX_COMMIT_QUEUE_BYTES))) ∧
    (∀ (s : DbState) (reader : LogReader) (vp ep : Nat → LogAction → Bool)
        (di : Nat → Bool),
      (applyPass ep di reader.items).2.2 = none →
      ((enact_logs s false (.ok (some reader)) vp ep di).notifiedLogQueue = true ↔
        (s.logQueueBytes > MAX_LOG_QUEUE_BYTES ∧
          s.logQueueBytes - (reader.readBytes : Int) ≤ MAX_LOG_QUEUE_BYTES))) := by
  refine ⟨?_, ?_, ?_, ?_⟩
  · intro s ch
    rcases h : s.bgErr with _ | e <;> simp [commit_raw, h]
  · intro s o
    rcases hq : s.queueCommits with _ | ⟨cm, rest⟩ <;>
      simp [process_commits, hq, Bool.and_eq_true, Bool.not_eq_true']
  · intro s o cm rest hq hle
    simp only [process_commits, hq]
    rw [Nat.sub_add_cancel hle]
    simp only [Bool.and_eq_true, decide_eq_true_eq]
    omega
  · intro s reader vp ep di ha
    simp [enact_logs, ha]
    omega

/-- C9 witness: with 33 bytes queued (far below the 16 MiB bound), the
pop of commit 2 does not notify the producer. -/
theorem C9_backpressure_guards_witness :
    (process_commits (commit_raw (db_open none 1 (fun _ => false) (fun _ _ => none))
      [(0, 5, some [1])]).state ⟨10, 2, false⟩).notifiedProducer = false := by
  have h := C9_backpressure_guards.2.2.1
    (commit_raw (db_open none 1 (fun _ => false) (fun _ _ => none))
      [(0, 5, some [1])]).state ⟨10, 2, false⟩
    ⟨2, 33, [(0, 5, some [1])]⟩ [] (by decide) (by decide)
  cases hb : (process_commits (commit_raw (db_open none 1 (fun _ => false)
      (fun _ _ => none)) [(0, 5, some [1])]).state ⟨10, 2, false⟩).notifiedProducer
  · rfl
  · exact absurd (h.mp hb) (by decide)

/-- C10: `DbInner::open` always sets `next_reindex` to 1 — never 0,
so a reindex sweep is registered as pending on every fresh engine —
and `last_enacted` to the replay record id minus one, defaulting to 1
when no replay log exists; in that default case the startup
`process_reindex` pass run by the log worker before its wait loop
passes the pending-work guard (`next_reindex` is nonzero and does not
exceed `last_enacted`). -/
theorem C10_open_initial_state (r : Option Nat) (n : Nat) (rc : Nat → Bool)
    (bk : Nat → Nat → Option Value) (o : ReindexOracle) :
    (db_open r n rc bk).nextReindex = 1 ∧
    (db_open r n rc bk).lastEnacted = r.getD 2 - 1 ∧
    (db_open none n rc bk).lastEnacted = 1 ∧
    ((db_open r n rc bk).nextReindex == 0) = false ∧
    log_worker_startup (db_open r n rc bk) o = process_reindex (db_open r n rc bk) o ∧
    (db_open none n rc bk).nextReindex ≤ (db_open none n rc bk).lastEnacted ∧
    (decide ((db_open none n rc bk).nextReindex = 0 ∨
      (db_open none n rc bk).nextReindex > (db_open none n rc bk).lastEnacted)) = false := by
  exact ⟨rfl, rfl, rfl, rfl, rfl, le_refl 1, rfl⟩
